import Mathlib

/-!
go-rtlsdr: magnitude table, I/Q conversion and the acquisition loop.

A shallow embedding of `magnitude.go`, `data.go` and the streaming part of
`rtlsdr.go`.

* Go `int` values are `Int`; a `byte` is a `Fin 256` and `uint8` arithmetic is
  arithmetic on `Nat` reduced modulo `256`; `Mag` (`int16`) is an `Int`
  obtained through `toInt16`.
* A run-time panic (index out of range, `make` with a length that is negative
  or above what the runtime can allocate) is an explicit `Except` error.
* A send on `dataPipe` is a blocking point of the goroutine: the buffer is on
  the channel only once the send has completed.
* `math.Sqrt` is IEEE-754 binary64 square root, correctly rounded.  Its
  argument is always `float64(n)` for a small non-negative integer `n`, so the
  result is modelled exactly as a dyadic rational `mant / 2 ^ shift` whose
  significand is the round-to-nearest 53-bit significand of `√n`.
-/

namespace Rtlsdr

/-! ## Numeric model -/

/-- Integer square root by bit search: with `n < (2 ^ b) ^ 2` the call
`isqrtBits n b 0` is the largest `r` with `r * r ≤ n`. -/
def isqrtBits (n : Nat) : Nat → Nat → Nat
  | 0, r => r
  | b + 1, r =>
    if (r + 2 ^ b) * (r + 2 ^ b) ≤ n then isqrtBits n b (r + 2 ^ b) else isqrtBits n b r

/-- Base-4 logarithm, rounded down (`0` at `0`); the first argument bounds the
number of divisions. -/
def log4Aux : Nat → Nat → Nat
  | 0, _ => 0
  | fuel + 1, n => if n < 4 then 0 else log4Aux fuel (n / 4) + 1

/-- Base-4 logarithm of `n`, rounded down. -/
def log4 (n : Nat) : Nat := log4Aux n n

/-- Integer square root, `⌊√n⌋`. -/
def isqrt (n : Nat) : Nat := isqrtBits n (log4 n + 1) 0

/-- A finite non-negative binary64 value, held exactly as `mant / 2 ^ shift`. -/
structure Float64 where
  mant : Nat
  shift : Nat
deriving DecidableEq, Repr

/-- Conversion `float64(n)` of a non-negative integer; exact below `2 ^ 53`. -/
def float64 (n : Nat) : Float64 := ⟨n, 0⟩

/-- Correctly rounded `math.Sqrt` at an integer-valued argument `n / 2 ^ 0`.
For `4 ^ p ≤ n < 4 ^ (p + 1)` the root lies in `[2 ^ p, 2 ^ (p + 1))`, so its
53-bit significand is `√n * 2 ^ (52 - p)` rounded to the nearest integer
(a tie cannot occur: the root is an integer or irrational). -/
def mathSqrt (x : Float64) : Float64 :=
  let n := x.mant
  if n = 0 then ⟨0, 0⟩
  else
    let s := 52 - log4 n
    let big := n * 4 ^ s
    let f := isqrt big
    ⟨if f * f + f < big then f + 1 else f, s⟩

/-- Integer part returned by `math.Modf` for a non-negative value. -/
def mathModf (x : Float64) : Nat := x.mant / 2 ^ x.shift

/-- Magnitude value, Go `int16`. -/
abbrev Mag := Int

/-- Conversion `Mag(int16(v))` of an integral float value `v`. -/
def toInt16 (v : Nat) : Mag := ((v + 2 ^ 15) % 2 ^ 16 : Nat) - 2 ^ 15

/-- The two statements `mag, _ := math.Modf(math.Sqrt(float64(s)))` and
`(Mag)(int16(mag))` shared by `buildMagLut` and `IqToMag`. -/
def sqrtToMag (s : Nat) : Mag := toInt16 (mathModf (mathSqrt (float64 s)))

/-! ## Run-time faults -/

/-- Go run-time panics reachable from the modelled code, and fuel exhaustion
of a modelled loop. -/
inductive Fault where
  | indexOutOfRange
  | negativeLen
  | lenOutOfRange
  | outOfFuel
deriving DecidableEq, Repr

deriving instance DecidableEq for Except

/-! ## magnitude.go -/

/-- MagBuffer is a buffer of the I/Q data converted to magnitudes. -/
structure MagBuffer where
  Buffer : List Mag
deriving DecidableEq, Repr

/-- `NewMagBuffer(size)`: `make([]Mag, size)` is a slice of `size` zeros and
panics for a negative `size`. -/
def NewMagBuffer (size : Int) : Except Fault MagBuffer :=
  if size < 0 then .error .negativeLen
  else .ok { Buffer := List.replicate size.toNat 0 }

/-- `buildMagLut`: 129 rows of 129 entries. -/
def buildMagLut : List (List Mag) :=
  (List.range 129).map fun i =>
    (List.range 129).map fun q =>
      let sumOfSquares := (i * i) + (q * q)
      sqrtToMag sumOfSquares

/-- MagnitudeLUT is a lookup table of I/Q -> Magnitude values. -/
def MagnitudeLUT : List (List Mag) := buildMagLut

/-- `(m *MagBuffer) append(mag)`. -/
def MagBuffer.append (m : MagBuffer) (mag : Mag) : MagBuffer :=
  { Buffer := m.Buffer ++ [mag] }

/-! ## data.go -/

/-- DataBuffer is the raw data coming off of the device. -/
structure DataBuffer where
  Size : Int
  Length : Int
  Buffer : List (Fin 256)
deriving DecidableEq, Repr

/-- `newDataBuffer(size)`: `make([]byte, size)` panics (`makeslice: len out of
range`) for a negative size and for a size above `maxAlloc`, the largest
length the Go runtime allocates (a constant of the runtime, itself a Go `int`:
`1 << 48` on linux/amd64). -/
def newDataBuffer (maxAlloc : Nat) (size : Int) : Except Fault DataBuffer :=
  if size < 0 then .error .negativeLen
  else if (maxAlloc : Int) < size then .error .lenOutOfRange
  else .ok { Size := size, Length := 0, Buffer := List.replicate size.toNat 0 }

/-- `uint8` subtraction. -/
def sub8 (a b : Nat) : Nat := (a + 256 - b % 256) % 256

/-- `uint8` negation. -/
def neg8 (a : Nat) : Nat := (256 - a % 256) % 256

/-- `uint8` multiplication. -/
def mul8 (a b : Nat) : Nat := (a * b) % 256

/-- `uint8` addition. -/
def add8 (a b : Nat) : Nat := (a + b) % 256

/-- Body of the loop of `IqToMag` after the two bytes were read: all of
`i`, `q` and `sumOfSquares` have type `uint8`. -/
def pairMag (b0 b1 : Fin 256) : Mag :=
  let i := sub8 b0.val 127
  let q := sub8 b1.val 127
  let i := if i < 0 then neg8 i else i
  let q := if q < 0 then neg8 q else q
  let sumOfSquares := add8 (mul8 i i) (mul8 q q)
  sqrtToMag sumOfSquares

/-- The loop `for j := 0; j < d.Length; j += 2` of `IqToMag`, from index `j`
with the magnitudes `mags` appended so far. -/
def iqLoop (d : DataBuffer) : Nat → Nat → MagBuffer → Except Fault MagBuffer
  | 0, _, _ => .error .outOfFuel
  | fuel + 1, j, mags =>
    if (j : Int) < d.Length then
      match d.Buffer[j]?, d.Buffer[j + 1]? with
      | some b0, some b1 => iqLoop d fuel (j + 2) (mags.append (pairMag b0 b1))
      | _, _ => .error .indexOutOfRange
    else .ok mags

/-- IqToMag converts I/Q data to magnitudes. -/
def DataBuffer.IqToMag (d : DataBuffer) : Except Fault MagBuffer :=
  match NewMagBuffer (Int.tdiv d.Length 2) with
  | .error e => .error e
  | .ok mags => iqLoop d (d.Length.toNat + 1) 0 mags

/-- Magnitude of the byte pair at offsets `j`, `j + 1` of `buf`; used to
state what the loop of `IqToMag` appends. -/
def pairAt (buf : List (Fin 256)) (j : Nat) : Mag :=
  pairMag (buf.getD j 0) (buf.getD (j + 1) 0)

/-! ## radio.go and the streaming functions of rtlsdr.go -/

/-- Radio is the representation of the RTLSDR device; the mutex and the
pointer to the C device structure are left out. -/
structure Radio where
  PpmError : Int
  TunerGainMode : Int
  GainOptions : List Int
  Gain : Int
  AutoGainControl : Int
  CenterFrequencyHz : Nat
  SampleRate : Nat
  DataBufferSize : Int
deriving DecidableEq, Repr

/-- NewRadio initializes the Radio struct (`ManualGain = 1`, `AgcEnabled = 1`). -/
def NewRadio : Radio :=
  { PpmError := 0, TunerGainMode := 1, GainOptions := [], Gain := 0, AutoGainControl := 1,
    CenterFrequencyHz := 0, SampleRate := 0, DataBufferSize := 256 * 1024 }

/-- One return of the driver call `rtlsdr_read_sync`: its return code, the
value it left in the variable `data`, and the bytes it wrote at the start of
the buffer it was handed. -/
structure ReadOutcome where
  retval : Int
  data : Int
  bytes : List (Fin 256)
deriving DecidableEq, Repr

/-- Memory of `buf` after the driver wrote `bytes` at its start; the driver is
given `len(buf)` as the limit. -/
def driverWrite (buf bytes : List (Fin 256)) : List (Fin 256) :=
  bytes.take buf.length ++ buf.drop bytes.length

/-- Control point of the goroutine running `readSyncInternal`. -/
inductive Pc where
  | notStarted
  | loopHead
  | inRead (buf : DataBuffer)
  | inSend (buf : DataBuffer)
  | panicked (e : Fault)
deriving DecidableEq, Repr

/-- State of one acquisition: the goroutine's control point, its variable
`data`, the buffers whose send on `dataPipe` has completed (oldest first), and
counters of the buffers allocated, the reads that returned, and the
cancellation requests handed to the driver. -/
structure Acq where
  pc : Pc
  data : Int
  dataPipe : List DataBuffer
  allocated : Nat
  reads : Nat
  cancelRequests : Nat
deriving DecidableEq, Repr

/-- State before `ReadAsync`. -/
def Acq.init : Acq :=
  { pc := .notStarted, data := 0, dataPipe := [], allocated := 0, reads := 0,
    cancelRequests := 0 }

/-- ReadAsync: `go dev.readSyncInternal(dataPipe)`. -/
def ReadAsync (s : Acq) : Acq :=
  match s.pc with
  | .notStarted => { s with pc := .loopHead }
  | _ => s

/-- From the head of the loop of `readSyncInternal` to the blocking driver
call: `buf := newDataBuffer(dev.DataBufferSize)`, then `&buf.Buffer[0]`. -/
def enterRead (maxAlloc : Nat) (dev : Radio) (s : Acq) : Acq :=
  match s.pc with
  | .loopHead =>
    match newDataBuffer maxAlloc dev.DataBufferSize with
    | .error e => { s with pc := .panicked e }
    | .ok buf =>
      match buf.Buffer[0]? with
      | none => { s with pc := .panicked .indexOutOfRange, allocated := s.allocated + 1 }
      | some _ => { s with pc := .inRead buf, allocated := s.allocated + 1 }
  | _ => s

/-- The driver call returns with outcome `o`: on a non-zero code the message
is printed and the loop is back at its head; on code `0` the goroutine sets
`buf.Length` and blocks in the send `dataPipe <- buf`. -/
def readReturns (o : ReadOutcome) (s : Acq) : Acq :=
  match s.pc with
  | .inRead buf =>
    let buf := { buf with Buffer := driverWrite buf.Buffer o.bytes }
    if o.retval ≠ 0 then
      { s with pc := .loopHead, data := o.data, reads := s.reads + 1 }
    else
      { s with pc := .inSend { buf with Length := o.data }, data := o.data,
               reads := s.reads + 1 }
  | _ => s

/-- The send `dataPipe <- buf` completes (a receiver took the buffer, or the
channel had room for it): the buffer is on `dataPipe` and the loop is back at
its head. -/
def sendCompletes (s : Acq) : Acq :=
  match s.pc with
  | .inSend buf => { s with pc := .loopHead, dataPipe := s.dataPipe ++ [buf] }
  | _ => s

/-- The loop `for { ... }` of `readSyncInternal`, run from the head of the loop
against the successive driver returns `outs`, every send on `dataPipe`
completing; when the returns are used up the goroutine is blocked in the next
driver call. -/
def readSyncInternal (maxAlloc : Nat) (dev : Radio) : List ReadOutcome → Acq → Acq
  | [], s => enterRead maxAlloc dev s
  | o :: outs, s =>
    readSyncInternal maxAlloc dev outs (sendCompletes (readReturns o (enterRead maxAlloc dev s)))

/-- CancelAsync: hands the request to the driver (`rtlsdr_cancel_async`) and
reports its return code; no variable of the loop is written. -/
def CancelAsync (retval : Int) (s : Acq) : Acq × Bool :=
  ({ s with cancelRequests := s.cancelRequests + 1 }, retval == 0)

/-- The buffer `readSyncInternal` sends for a driver return with code `0`. -/
def published (dev : Radio) (o : ReadOutcome) : Option DataBuffer :=
  if o.retval = 0 then
    some { Size := dev.DataBufferSize, Length := o.data,
           Buffer := driverWrite (List.replicate dev.DataBufferSize.toNat 0) o.bytes }
  else none

/-- A device with two-byte buffers, for the cancellation scenario. -/
def cancelDev : Radio := { NewRadio with DataBufferSize := 2 }

/-- The cancellation scenario (allocation limit `1 << 48`): `ReadAsync`, the
loop blocks in its first driver call, `CancelAsync` is requested (the driver
answers `0`) while that read is in flight, and the read then returns with the
error code `-1`. -/
def afterCancelledRead : Acq :=
  readReturns ⟨-1, 0, []⟩
    (CancelAsync 0 (enterRead (2 ^ 48) cancelDev (ReadAsync Acq.init))).1

/-! ## Numeric lemmas -/

theorem isqrtBits_eq_sqrt (n : Nat) :
    ∀ (b r : Nat), r * r ≤ n → n < (r + 2 ^ b) * (r + 2 ^ b) → isqrtBits n b r = Nat.sqrt n := by
  intro b
  induction b with
  | zero =>
    intro r hlo hhi
    simp only [isqrtBits]
    exact Nat.eq_sqrt.2 ⟨hlo, by simpa using hhi⟩
  | succ b ih =>
    intro r hlo hhi
    simp only [isqrtBits]
    split
    · next h =>
      apply ih _ h
      have e : r + 2 ^ b + 2 ^ b = r + 2 ^ (b + 1) := by rw [pow_succ]; omega
      rw [e]; exact hhi
    · next h =>
      exact ih _ hlo (Nat.lt_of_not_le h)

theorem lt_pow_log4Aux : ∀ (fuel n : Nat), n ≤ fuel → n < 4 ^ (log4Aux fuel n + 1) := by
  intro fuel
  induction fuel with
  | zero => intro n h; simp only [log4Aux]; omega
  | succ fuel ih =>
    intro n h
    simp only [log4Aux]
    split
    · next h4 => simpa using h4
    · next h4 =>
      have h1 : n / 4 ≤ fuel := by omega
      have h2 := ih (n / 4) h1
      rw [pow_succ]
      omega

theorem log4Aux_le : ∀ (fuel n c : Nat), n < 4 ^ (c + 1) → log4Aux fuel n ≤ c := by
  intro fuel
  induction fuel with
  | zero => intro n c _; simp [log4Aux]
  | succ fuel ih =>
    intro n c h
    simp only [log4Aux]
    split
    · exact Nat.zero_le _
    · next h4 =>
      cases c with
      | zero => simp at h; omega
      | succ c =>
        have h2 : n / 4 < 4 ^ (c + 1) := by
          rw [pow_succ] at h
          omega
        have := ih (n / 4) c h2
        omega

theorem isqrt_eq_sqrt (n : Nat) : isqrt n = Nat.sqrt n := by
  unfold isqrt
  apply isqrtBits_eq_sqrt
  · simp
  · have h := lt_pow_log4Aux n n (Nat.le_refl n)
    have e : (4 : Nat) ^ (log4 n + 1) = (0 + 2 ^ (log4 n + 1)) * (0 + 2 ^ (log4 n + 1)) := by
      rw [Nat.zero_add, ← Nat.mul_pow]
    rw [← e]
    exact h

/-- Truncating the correctly rounded binary64 square root of an integer
below `2 ^ 52` gives the integer square root: rounding never reaches the next
integer. -/
theorem mathModf_mathSqrt (n : Nat) (hn : n < 4 ^ 26) :
    mathModf (mathSqrt (float64 n)) = Nat.sqrt n := by
  unfold mathSqrt float64
  simp only
  split
  · next h0 => subst h0; simp [mathModf]
  · next h0 =>
    rw [isqrt_eq_sqrt]
    simp only [mathModf]
    have hp : log4 n ≤ 25 := log4Aux_le n n 25 hn
    have hlt : n < 4 ^ (log4 n + 1) := lt_pow_log4Aux n n (Nat.le_refl n)
    generalize log4 n = p at hp hlt
    generalize hs : 52 - p = s
    generalize hk : Nat.sqrt n = k
    generalize hf : Nat.sqrt (n * 4 ^ s) = f
    have hP : (4 : Nat) ^ s = 2 ^ s * 2 ^ s := by rw [← Nat.mul_pow]
    have hk1 : k * k ≤ n := by rw [← hk]; exact Nat.sqrt_le n
    have hk2 : n < (k + 1) * (k + 1) := by rw [← hk]; exact Nat.lt_succ_sqrt n
    have hkP : k + 1 ≤ 2 ^ s := by
      have h1 : k < 2 ^ (p + 1) := by
        rw [← hk, Nat.sqrt_lt, ← Nat.mul_pow]; exact hlt
      have h2 : (2 : Nat) ^ (p + 1) ≤ 2 ^ s := Nat.pow_le_pow_right (by decide) (by omega)
      omega
    rw [hP]
    rw [hP] at hf
    generalize 2 ^ s = P at hkP hf
    have hPpos : 0 < P := by omega
    have hf1 : k * P ≤ f := by
      rw [← hf, Nat.le_sqrt]
      calc k * P * (k * P) = k * k * (P * P) := by ring
        _ ≤ n * (P * P) := Nat.mul_le_mul_right _ hk1
    have hf2 : f < (k + 1) * P := by
      rw [← hf, Nat.sqrt_lt]
      calc n * (P * P) < (k + 1) * (k + 1) * (P * P) :=
            Nat.mul_lt_mul_of_pos_right hk2 (Nat.mul_pos hPpos hPpos)
        _ = (k + 1) * P * ((k + 1) * P) := by ring
    have hdiv : ∀ m, k * P ≤ m → m < (k + 1) * P → m / P = k := by
      intro m h1 h2
      apply Nat.div_eq_of_lt_le
      · exact h1
      · exact h2
    split
    · next hr =>
      apply hdiv
      · omega
      · by_contra hcon
        have hfe : f + 1 = (k + 1) * P := by omega
        have h3 : n * (P * P) + P * P ≤ (f + 1) * (f + 1) := by
          rw [hfe]
          calc n * (P * P) + P * P = (n + 1) * (P * P) := by ring
            _ ≤ (k + 1) * (k + 1) * (P * P) := Nat.mul_le_mul_right _ hk2
            _ = (k + 1) * P * ((k + 1) * P) := by ring
        have h4 : (f + 1) * (f + 1) = f * f + f + (f + 1) := by ring
        have h5 : P * P < f + 1 := by omega
        have h6 : P * P < (k + 1) * P := by omega
        have h7 : P < k + 1 := Nat.lt_of_mul_lt_mul_right h6
        omega
    · exact hdiv f hf1 hf2

theorem pow_log4Aux_le : ∀ (fuel n : Nat), n ≤ fuel → 1 ≤ n → 4 ^ log4Aux fuel n ≤ n := by
  intro fuel
  induction fuel with
  | zero => intro n h h1; omega
  | succ fuel ih =>
    intro n h h1
    simp only [log4Aux]
    split
    · simpa using h1
    · next h4 =>
      have h2 := ih (n / 4) (by omega) (by omega)
      rw [pow_succ]
      omega

/-- The significand produced by `mathSqrt` is normalised: it has exactly 53
bits (or is `2 ^ 53`, the next binade's first value). -/
theorem mathSqrt_normal (n : Nat) (h0 : 0 < n) (hn : n < 4 ^ 26) :
    2 ^ 52 ≤ (mathSqrt (float64 n)).mant ∧ (mathSqrt (float64 n)).mant ≤ 2 ^ 53 := by
  unfold mathSqrt float64
  simp only
  rw [if_neg (by omega), isqrt_eq_sqrt]
  have hp : log4 n ≤ 25 := log4Aux_le n n 25 hn
  have hlt : n < 4 ^ (log4 n + 1) := lt_pow_log4Aux n n (Nat.le_refl n)
  have hge : 4 ^ log4 n ≤ n := pow_log4Aux_le n n (Nat.le_refl n) h0
  generalize log4 n = p at hp hlt hge
  have hpos : 0 < 4 ^ (52 - p) := pow_pos (by decide) _
  have e1 : 4 ^ p * 4 ^ (52 - p) = 2 ^ 52 * 2 ^ 52 := by
    rw [← pow_add, ← Nat.mul_pow]
    congr 1
    omega
  have e2 : 4 ^ (p + 1) * 4 ^ (52 - p) = 2 ^ 53 * 2 ^ 53 := by
    rw [← pow_add, ← Nat.mul_pow]
    congr 1
    omega
  have hlo : 2 ^ 52 ≤ Nat.sqrt (n * 4 ^ (52 - p)) := by
    rw [Nat.le_sqrt, ← e1]
    exact Nat.mul_le_mul_right _ hge
  have hhi : Nat.sqrt (n * 4 ^ (52 - p)) < 2 ^ 53 := by
    rw [Nat.sqrt_lt, ← e2]
    exact Nat.mul_lt_mul_of_pos_right hlt hpos
  split <;> simp only <;> omega

/-- The significand produced by `mathSqrt` is the integer nearest to
`√n * 2 ^ shift`: the distance is at most one half. -/
theorem mathSqrt_nearest (n : Nat) (h0 : 0 < n) :
    (2 * (mathSqrt (float64 n)).mant - 1) * (2 * (mathSqrt (float64 n)).mant - 1) ≤
        4 * (n * 4 ^ (mathSqrt (float64 n)).shift) ∧
      4 * (n * 4 ^ (mathSqrt (float64 n)).shift) ≤
        (2 * (mathSqrt (float64 n)).mant + 1) * (2 * (mathSqrt (float64 n)).mant + 1) := by
  unfold mathSqrt float64
  simp only
  rw [if_neg (by omega), isqrt_eq_sqrt]
  simp only
  generalize n * 4 ^ (52 - log4 n) = big
  have h1 : Nat.sqrt big * Nat.sqrt big ≤ big := Nat.sqrt_le big
  have h2 : big < (Nat.sqrt big + 1) * (Nat.sqrt big + 1) := Nat.lt_succ_sqrt big
  generalize Nat.sqrt big = f at h1 h2
  split
  · next hr =>
    have e : 2 * (f + 1) - 1 = 2 * f + 1 := by omega
    rw [e]
    constructor <;> nlinarith
  · next hr =>
    constructor
    · have e : (2 * f - 1) * (2 * f - 1) ≤ (2 * f) * (2 * f) :=
        Nat.mul_le_mul (Nat.sub_le _ _) (Nat.sub_le _ _)
      nlinarith
    · nlinarith

theorem toInt16_of_lt (v : Nat) (h : v < 2 ^ 15) : toInt16 v = (v : Int) := by
  unfold toInt16
  have : (v + 2 ^ 15) % 2 ^ 16 = v + 2 ^ 15 := Nat.mod_eq_of_lt (by omega)
  rw [this]
  push_cast
  ring

/-- For `s < 2 ^ 30` the value stored by the shared conversion is `⌊√s⌋`. -/
theorem sqrtToMag_eq (s : Nat) (h : s < 2 ^ 30) : sqrtToMag s = (Nat.sqrt s : Int) := by
  unfold sqrtToMag
  rw [mathModf_mathSqrt s (by omega)]
  apply toInt16_of_lt
  rw [Nat.sqrt_lt]
  omega

/-! ## The loop of `IqToMag` -/

theorem iqLoop_ok (d : DataBuffer) :
    ∀ (cnt fuel j : Nat) (mags : MagBuffer), cnt < fuel →
      d.Length ≤ (j : Int) + 2 * cnt →
      (cnt = 0 ∨ (j : Int) + 2 * cnt < d.Length + 2) →
      j + 2 * cnt ≤ d.Buffer.length →
      iqLoop d fuel j mags =
        .ok ⟨mags.Buffer ++ (List.range cnt).map fun k => pairAt d.Buffer (j + 2 * k)⟩ := by
  intro cnt
  induction cnt with
  | zero =>
    intro fuel j mags hf hL _ _
    obtain ⟨f, rfl⟩ : ∃ f, fuel = f + 1 := ⟨fuel - 1, by omega⟩
    have hj : ¬ ((j : Int) < d.Length) := by omega
    simp [iqLoop, hj]
  | succ cnt ih =>
    intro fuel j mags hf hL hlo hlen
    obtain ⟨f, rfl⟩ : ∃ f, fuel = f + 1 := ⟨fuel - 1, by omega⟩
    have hj : (j : Int) < d.Length := by omega
    have h0 : j < d.Buffer.length := by omega
    have h1 : j + 1 < d.Buffer.length := by omega
    have e0 : d.Buffer[j]? = some d.Buffer[j] := List.getElem?_eq_getElem h0
    have e1 : d.Buffer[j + 1]? = some d.Buffer[j + 1] := List.getElem?_eq_getElem h1
    rw [iqLoop, if_pos hj, e0, e1]
    simp only
    rw [ih f (j + 2) _ (by omega) (by push_cast; omega) (by push_cast; omega) (by omega)]
    have key : (mags.append (pairMag d.Buffer[j] d.Buffer[j + 1])).Buffer ++
          (List.range cnt).map (fun k => pairAt d.Buffer (j + 2 + 2 * k)) =
        mags.Buffer ++ (List.range (cnt + 1)).map (fun k => pairAt d.Buffer (j + 2 * k)) := by
      rw [List.range_succ_eq_map, List.map_cons, List.map_map]
      simp only [MagBuffer.append, List.append_assoc, List.singleton_append]
      have ea : pairAt d.Buffer (j + 2 * 0) = pairMag d.Buffer[j] d.Buffer[j + 1] := by
        simp [pairAt, e0, e1]
      have eb : (List.range cnt).map (fun k => pairAt d.Buffer (j + 2 + 2 * k)) =
          (List.range cnt).map ((fun k => pairAt d.Buffer (j + 2 * k)) ∘ Nat.succ) := by
        apply List.map_congr_left
        intro k _
        have : j + 2 + 2 * k = j + 2 * (k + 1) := by omega
        simp only [Function.comp, Nat.succ_eq_add_one, this]
      rw [ea, eb]
    rw [key]

/-- Closed form of `IqToMag` whenever every byte it reads exists: the
`Length / 2` zeros of `NewMagBuffer`, followed by one value per iteration. -/
theorem IqToMag_ok (d : DataBuffer) (n : Nat) (hL : d.Length = n)
    (hlen : n + n % 2 ≤ d.Buffer.length) :
    d.IqToMag = .ok ⟨List.replicate (n / 2) 0 ++
      (List.range ((n + 1) / 2)).map fun k => pairAt d.Buffer (2 * k)⟩ := by
  unfold DataBuffer.IqToMag NewMagBuffer
  have ht : (n : Int).tdiv 2 = ((n / 2 : Nat) : Int) := by
    rw [Int.tdiv_eq_ediv (by omega) (by omega)]; omega
  rw [hL, ht]
  have h0 : ¬ (((n / 2 : Nat) : Int) < 0) := by omega
  rw [if_neg h0]
  simp only [Int.toNat_ofNat]
  rw [iqLoop_ok d ((n + 1) / 2) (n + 1) 0 _ (by omega) (by rw [hL]; push_cast; omega)
    (by rw [hL]; push_cast; omega) (by omega)]
  simp

/-- When the total length is odd and equals `len(Buffer)`, the last iteration
reads one byte past the end of the slice. -/
theorem iqLoop_panics (d : DataBuffer) :
    ∀ (cnt fuel j : Nat) (mags : MagBuffer), cnt < fuel →
      (j : Int) + 2 * cnt < d.Length →
      j + 2 * cnt + 1 = d.Buffer.length →
      iqLoop d fuel j mags = .error .indexOutOfRange := by
  intro cnt
  induction cnt with
  | zero =>
    intro fuel j mags hf hL hlen
    obtain ⟨f, rfl⟩ : ∃ f, fuel = f + 1 := ⟨fuel - 1, by omega⟩
    have hj : (j : Int) < d.Length := by omega
    have e1 : d.Buffer[j + 1]? = none := List.getElem?_eq_none (by omega)
    rw [iqLoop, if_pos hj, e1]
    cases d.Buffer[j]? <;> rfl
  | succ cnt ih =>
    intro fuel j mags hf hL hlen
    obtain ⟨f, rfl⟩ : ∃ f, fuel = f + 1 := ⟨fuel - 1, by omega⟩
    have hj : (j : Int) < d.Length := by omega
    have h0 : j < d.Buffer.length := by omega
    have h1 : j + 1 < d.Buffer.length := by omega
    have e0 : d.Buffer[j]? = some d.Buffer[j] := List.getElem?_eq_getElem h0
    have e1 : d.Buffer[j + 1]? = some d.Buffer[j + 1] := List.getElem?_eq_getElem h1
    rw [iqLoop, if_pos hj, e0, e1]
    simp only
    exact ih f (j + 2) _ (by omega) (by push_cast; omega) (by omega)

/-! ## The arithmetic of one pair -/

theorem pairMag_eq (b0 b1 : Fin 256) :
    pairMag b0 b1 =
      (Nat.sqrt ((((b0.val : Int) - 127) % 256 * (((b0.val : Int) - 127) % 256) +
        ((b1.val : Int) - 127) % 256 * (((b1.val : Int) - 127) % 256)) % 256).toNat : Int) := by
  have hx : ((b0.val : Int) - 127) % 256 = ((sub8 b0.val 127 : Nat) : Int) := by
    unfold sub8; omega
  have hy : ((b1.val : Int) - 127) % 256 = ((sub8 b1.val 127 : Nat) : Int) := by
    unfold sub8; omega
  unfold pairMag
  simp only [Nat.not_lt_zero, if_false]
  rw [hx, hy]
  generalize sub8 b0.val 127 = i
  generalize sub8 b1.val 127 = q
  have hs : (((i : Int) * i + (q : Int) * q) % 256).toNat = add8 (mul8 i i) (mul8 q q) := by
    have : ((i : Int) * i + (q : Int) * q) % 256 = (((i * i + q * q) % 256 : Nat) : Int) := by
      push_cast; rfl
    rw [this, Int.toNat_ofNat]
    unfold add8 mul8
    exact Nat.add_mod _ _ _
  rw [hs]
  have hlt : add8 (mul8 i i) (mul8 q q) < 256 := Nat.mod_lt _ (by decide)
  exact sqrtToMag_eq _ (by omega)

theorem pairMag_range (b0 b1 : Fin 256) :
    (0 : Int) ≤ pairMag b0 b1 ∧ (pairMag b0 b1 : Int) ≤ 15 := by
  rw [pairMag_eq]
  generalize (((b0.val : Int) - 127) % 256 * (((b0.val : Int) - 127) % 256) +
        ((b1.val : Int) - 127) % 256 * (((b1.val : Int) - 127) % 256)) = z
  have h1 : (z % 256).toNat < 16 * 16 := by omega
  have h2 : Nat.sqrt (z % 256).toNat < 16 := Nat.sqrt_lt.2 h1
  generalize Nat.sqrt (z % 256).toNat = a at h2
  exact ⟨Int.ofNat_nonneg a, Int.ofNat_le.2 (by omega : a ≤ 15)⟩

/-! ## The lookup table -/

theorem MagnitudeLUT_entry (i q : Nat) (hi : i ≤ 128) (hq : q ≤ 128) :
    (MagnitudeLUT[i]?.bind fun row => row[q]?) = some (Nat.sqrt (i * i + q * q) : Int) := by
  have hi2 : i * i ≤ 128 * 128 := Nat.mul_le_mul hi hi
  have hq2 : q * q ≤ 128 * 128 := Nat.mul_le_mul hq hq
  unfold MagnitudeLUT buildMagLut
  rw [List.getElem?_map, List.getElem?_range (by omega)]
  simp only [Option.map_some', Option.some_bind]
  rw [List.getElem?_map, List.getElem?_range (by omega)]
  simp only [Option.map_some']
  rw [sqrtToMag_eq _ (by omega)]

/-! ## The acquisition loop -/

theorem driverWrite_length (buf bytes : List (Fin 256)) :
    (driverWrite buf bytes).length = buf.length := by
  unfold driverWrite
  rw [List.length_append, List.length_take, List.length_drop]
  omega

theorem enterRead_of_pos (maxAlloc : Nat) (dev : Radio) (s : Acq)
    (hsz : 0 < dev.DataBufferSize) (hmax : dev.DataBufferSize ≤ maxAlloc)
    (hpc : s.pc = .loopHead) :
    enterRead maxAlloc dev s =
      { s with pc := .inRead ⟨dev.DataBufferSize, 0, List.replicate dev.DataBufferSize.toNat 0⟩,
               allocated := s.allocated + 1 } := by
  have h0 : ¬ dev.DataBufferSize < 0 := by omega
  have h1 : 0 < dev.DataBufferSize.toNat := by omega
  have h2 : ¬ (maxAlloc : Int) < dev.DataBufferSize := by omega
  unfold enterRead newDataBuffer
  rw [hpc]
  simp only [if_neg h0, if_neg h2]
  rw [List.getElem?_replicate_of_lt h1]

theorem enterRead_panics (maxAlloc : Nat) (dev : Radio) (s : Acq)
    (hsz : dev.DataBufferSize ≤ 0 ∨ (maxAlloc : Int) < dev.DataBufferSize)
    (hpc : s.pc = .loopHead) :
    ∃ e, (enterRead maxAlloc dev s).pc = .panicked e ∧
      (enterRead maxAlloc dev s).dataPipe = s.dataPipe ∧
      (enterRead maxAlloc dev s).reads = s.reads := by
  unfold enterRead newDataBuffer
  rw [hpc]
  by_cases h0 : dev.DataBufferSize < 0
  · exact ⟨.negativeLen, by simp [if_pos h0]⟩
  · by_cases h2 : (maxAlloc : Int) < dev.DataBufferSize
    · exact ⟨.lenOutOfRange, by simp [if_neg h0, if_pos h2]⟩
    · have hz : dev.DataBufferSize.toNat = 0 := by omega
      exact ⟨.indexOutOfRange, by simp [if_neg h0, if_neg h2, hz]⟩

theorem readSyncInternal_of_panicked (maxAlloc : Nat) (dev : Radio) (e : Fault) :
    ∀ (outs : List ReadOutcome) (s : Acq), s.pc = .panicked e →
      readSyncInternal maxAlloc dev outs s = s := by
  intro outs
  induction outs with
  | nil => intro s h; simp [readSyncInternal, enterRead, h]
  | cons o outs ih =>
    intro s h
    have h1 : enterRead maxAlloc dev s = s := by simp [enterRead, h]
    have h2 : readReturns o s = s := by simp [readReturns, h]
    have h3 : sendCompletes s = s := by simp [sendCompletes, h]
    rw [readSyncInternal, h1, h2, h3]
    exact ih s h

theorem sendCompletes_readReturns (o : ReadOutcome) (s : Acq) (dev : Radio)
    (hpc : s.pc = .inRead ⟨dev.DataBufferSize, 0, List.replicate dev.DataBufferSize.toNat 0⟩) :
    sendCompletes (readReturns o s) =
      { s with pc := .loopHead, data := o.data, reads := s.reads + 1,
               dataPipe := s.dataPipe ++ (published dev o).toList } := by
  unfold readReturns published
  rw [hpc]
  by_cases h : o.retval = 0
  · simp [h, sendCompletes]
  · simp [h, sendCompletes]

/-- With a `DataBufferSize` that is positive and within the allocation limit,
and every send completing, the loop consumes every driver return, sends
exactly the buffers of the returns with code `0`, in order, and ends blocked
in the next driver call. -/
theorem readSyncInternal_of_pos (maxAlloc : Nat) (dev : Radio)
    (hsz : 0 < dev.DataBufferSize) (hmax : dev.DataBufferSize ≤ maxAlloc) :
    ∀ (outs : List ReadOutcome) (s : Acq), s.pc = .loopHead →
      (readSyncInternal maxAlloc dev outs s).dataPipe =
        s.dataPipe ++ outs.filterMap (published dev) ∧
      (readSyncInternal maxAlloc dev outs s).reads = s.reads + outs.length ∧
      (readSyncInternal maxAlloc dev outs s).allocated = s.allocated + outs.length + 1 ∧
      (readSyncInternal maxAlloc dev outs s).cancelRequests = s.cancelRequests ∧
      (readSyncInternal maxAlloc dev outs s).pc =
        .inRead ⟨dev.DataBufferSize, 0, List.replicate dev.DataBufferSize.toNat 0⟩ := by
  intro outs
  induction outs with
  | nil =>
    intro s hpc
    rw [readSyncInternal, enterRead_of_pos maxAlloc dev s hsz hmax hpc]
    simp
  | cons o outs ih =>
    intro s hpc
    rw [readSyncInternal, enterRead_of_pos maxAlloc dev s hsz hmax hpc,
      sendCompletes_readReturns o _ dev rfl]
    have h := ih { s with pc := .loopHead, data := o.data, reads := s.reads + 1,
                          allocated := s.allocated + 1,
                          dataPipe := s.dataPipe ++ (published dev o).toList } rfl
    obtain ⟨h1, h2, h3, h4, h5⟩ := h
    refine ⟨?_, ?_, ?_, ?_, ?_⟩
    · rw [h1]
      simp only [List.append_assoc]
      congr 1
      cases hp : published dev o <;> simp [List.filterMap_cons, hp]
    · rw [h2]; simp only [List.length_cons]; omega
    · rw [h3]; simp only [List.length_cons]; omega
    · rw [h4]
    · rw [h5]

theorem published_shape (dev : Radio) (o : ReadOutcome) (b : DataBuffer)
    (h : published dev o = some b) (hsz : 0 ≤ dev.DataBufferSize) :
    o.retval = 0 ∧ b.Length = o.data ∧ b.Size = dev.DataBufferSize ∧
      (b.Buffer.length : Int) = dev.DataBufferSize := by
  unfold published at h
  split at h
  · next h0 =>
    injection h with h
    subst h
    refine ⟨h0, rfl, rfl, ?_⟩
    simp only [driverWrite_length, List.length_replicate]
    omega
  · cases h

theorem readSyncInternal_panics (maxAlloc : Nat) (dev : Radio)
    (hsz : dev.DataBufferSize ≤ 0 ∨ (maxAlloc : Int) < dev.DataBufferSize)
    (outs : List ReadOutcome) (s : Acq) (hpc : s.pc = .loopHead) :
    readSyncInternal maxAlloc dev outs s = enterRead maxAlloc dev s := by
  obtain ⟨e, he, _, _⟩ := enterRead_panics maxAlloc dev s hsz hpc
  cases outs with
  | nil => rfl
  | cons o outs =>
    have h2 : readReturns o (enterRead maxAlloc dev s) = enterRead maxAlloc dev s := by
      simp [readReturns, he]
    have h3 : sendCompletes (enterRead maxAlloc dev s) = enterRead maxAlloc dev s := by
      simp [sendCompletes, he]
    rw [readSyncInternal, h2, h3]
    exact readSyncInternal_of_panicked maxAlloc dev e outs _ he

/-- A cancellation request changes no step of the loop, at whatever control
point it arrives: requesting it before or after `enterRead` is the same. -/
theorem CancelAsync_enterRead (maxAlloc : Nat) (dev : Radio) (retval : Int) (s : Acq) :
    enterRead maxAlloc dev (CancelAsync retval s).1 =
      (CancelAsync retval (enterRead maxAlloc dev s)).1 := by
  obtain ⟨pc, data, pipe, al, rd, cr⟩ := s
  cases pc <;> simp only [enterRead, CancelAsync]
  cases newDataBuffer maxAlloc dev.DataBufferSize with
  | error e => rfl
  | ok buf =>
    simp only
    cases buf.Buffer[0]? <;> rfl

/-- A cancellation request during a read in flight changes nothing of what the
loop does when that read returns. -/
theorem CancelAsync_readReturns (o : ReadOutcome) (retval : Int) (s : Acq) :
    readReturns o (CancelAsync retval s).1 = (CancelAsync retval (readReturns o s)).1 := by
  obtain ⟨pc, data, pipe, al, rd, cr⟩ := s
  cases pc <;> simp only [readReturns, CancelAsync]
  by_cases h : o.retval = 0 <;> simp [h]

/-- A cancellation request during a send changes nothing of the send. -/
theorem CancelAsync_sendCompletes (retval : Int) (s : Acq) :
    sendCompletes (CancelAsync retval s).1 = (CancelAsync retval (sendCompletes s)).1 := by
  obtain ⟨pc, data, pipe, al, rd, cr⟩ := s
  cases pc <;> simp only [sendCompletes, CancelAsync]

theorem published_lengths (dev : Radio) (outs : List ReadOutcome) :
    (outs.filterMap (published dev)).map (·.Length) =
      (outs.filter fun o => o.retval = 0).map (·.data) := by
  induction outs with
  | nil => rfl
  | cons o outs ih =>
    by_cases h : o.retval = 0
    · simp [List.filterMap_cons, List.filter_cons, published, h, ih]
    · simp [List.filterMap_cons, List.filter_cons, published, h, ih]

theorem IqToMag_panics_of_odd_full (d : DataBuffer) (n : Nat) (hL : d.Length = n)
    (hodd : n % 2 = 1) (hfull : d.Buffer.length = n) :
    d.IqToMag = .error .indexOutOfRange := by
  unfold DataBuffer.IqToMag NewMagBuffer
  have ht : (n : Int).tdiv 2 = ((n / 2 : Nat) : Int) := by
    rw [Int.tdiv_eq_ediv (by omega) (by omega)]; omega
  rw [hL, ht]
  have h0 : ¬ (((n / 2 : Nat) : Int) < 0) := by omega
  rw [if_neg h0]
  simp only [Int.toNat_ofNat]
  exact iqLoop_panics d (n / 2) (n + 1) 0 _ (by omega) (by rw [hL]; push_cast; omega) (by omega)

/-! ## The claims -/

/-- C1: `MagnitudeLUT`, as built by `buildMagLut`, has 129 rows of 129 entries,
and for all `i, q ≤ 128` the entry `MagnitudeLUT[i][q]` is exactly the integer
square root of `i * i + q * q`. -/
theorem C1_magnitudeLUT_is_floor_sqrt :
    MagnitudeLUT.length = 129 ∧ (∀ row ∈ MagnitudeLUT, row.length = 129) ∧
    ∀ i q : Nat, i ≤ 128 → q ≤ 128 →
      (MagnitudeLUT[i]?.bind fun row => row[q]?) = some (Nat.sqrt (i * i + q * q) : Int) := by
  refine ⟨?_, ?_, MagnitudeLUT_entry⟩
  · simp [MagnitudeLUT, buildMagLut]
  · intro row hrow
    simp only [MagnitudeLUT, buildMagLut, List.mem_map] at hrow
    obtain ⟨i, _, rfl⟩ := hrow
    simp

/-- C1 at `i = q = 128`, the largest entry of the table. -/
theorem C1_magnitudeLUT_witness :
    (128 ≤ 128 ∧ 128 ≤ 128) ∧
    (MagnitudeLUT[128]?.bind fun row => row[128]?) =
      some (Nat.sqrt (128 * 128 + 128 * 128) : Int) :=
  ⟨by decide, C1_magnitudeLUT_is_floor_sqrt.2.2 128 128 (by decide) (by decide)⟩

/-- C2 (evaluation of the code): for the two bytes `(0, 0)` with `Length = 2`
the value at output index `0` of `IqToMag` is `0` and the only computed value
is `1`, while `MagnitudeLUT[127][127]` is `179`. -/
theorem C2_output_index_zero_is_padding :
    (DataBuffer.mk 2 2 [0, 0]).IqToMag = .ok ⟨[0, 1]⟩ ∧
    (MagnitudeLUT[127]?.bind fun row => row[127]?) = some 179 := by
  refine ⟨by decide, ?_⟩
  rw [MagnitudeLUT_entry 127 127 (by decide) (by decide)]
  have h : (179 : Nat) = Nat.sqrt (127 * 127 + 127 * 127) :=
    Nat.eq_sqrt.2 ⟨by decide, by decide⟩
  rw [← h]
  rfl

/-- C3 (evaluation of the code): with `Length = 2` the buffer returned by
`IqToMag` holds two values, not `2 / 2 = 1`. -/
theorem C3_length_two_gives_two_values :
    (DataBuffer.mk 2 2 [127, 127]).IqToMag = .ok ⟨[0, 0]⟩ ∧
    ((DataBuffer.mk 2 2 [127, 127]).IqToMag.map fun m => m.Buffer.length) = .ok 2 := by
  decide

/-- C4 (evaluation of the code): with `Length = 2`, `IqToMag` returns `[0, 0]`
for the pair `(127, 127)`, `[0, 1]` for `(0, 0)` and `[0, 0]` for
`(255, 255)`. -/
theorem C4_boundary_pairs :
    (DataBuffer.mk 2 2 [127, 127]).IqToMag = .ok ⟨[0, 0]⟩ ∧
    (DataBuffer.mk 2 2 [0, 0]).IqToMag = .ok ⟨[0, 1]⟩ ∧
    (DataBuffer.mk 2 2 [255, 255]).IqToMag = .ok ⟨[0, 0]⟩ := by
  decide

/-- C5 (evaluation of the code): with `Length = 5` the loop runs a third
iteration on the bytes at indices `4` and `5`: the result differs from the one
for `Length = 4`, depends on the byte at index `5`, and with only five bytes
the call panics. -/
theorem C5_odd_length_uses_trailing_byte :
    (DataBuffer.mk 6 5 [127, 127, 127, 127, 127, 0]).IqToMag = .ok ⟨[0, 0, 0, 0, 1]⟩ ∧
    (DataBuffer.mk 6 4 [127, 127, 127, 127, 127, 0]).IqToMag = .ok ⟨[0, 0, 0, 0]⟩ ∧
    (DataBuffer.mk 6 5 [127, 127, 127, 127, 127, 127]).IqToMag = .ok ⟨[0, 0, 0, 0, 0]⟩ ∧
    (DataBuffer.mk 6 5 [127, 127, 127, 127, 0, 127]).IqToMag = .ok ⟨[0, 0, 0, 0, 1]⟩ ∧
    (DataBuffer.mk 5 5 [127, 127, 127, 127, 127]).IqToMag = .error .indexOutOfRange := by
  decide

/-- C6 (evaluation of the code): on the valid buffer of one byte with
`Length = Size = 1`, `IqToMag` reads `Buffer[1]` and panics with an index out
of range. -/
theorem C6_full_odd_buffer_panics :
    (DataBuffer.mk 1 1 [127]).IqToMag = .error .indexOutOfRange :=
  IqToMag_panics_of_odd_full _ 1 rfl rfl rfl

/-- C7: for every finite sequence of driver returns, the buffers sent on
`dataPipe` by the loop of `readSyncInternal` are exactly those of the consumed
returns with code `0`, in order; the `Length` of each is the byte count of its
read, its `Size` and `len(Buffer)` are `dev.DataBufferSize`; a failed read
does not stop the loop: with a `DataBufferSize` that is positive and within
the allocation limit every return is consumed, and only a panic of the
goroutine leaves a return unconsumed. -/
theorem C7_dataPipe_is_successful_reads (maxAlloc : Nat) (dev : Radio)
    (outs : List ReadOutcome) :
    (readSyncInternal maxAlloc dev outs (ReadAsync Acq.init)).dataPipe =
      (outs.take (readSyncInternal maxAlloc dev outs (ReadAsync Acq.init)).reads).filterMap
        (published dev) ∧
    (readSyncInternal maxAlloc dev outs (ReadAsync Acq.init)).dataPipe.map (·.Length) =
      ((outs.take (readSyncInternal maxAlloc dev outs (ReadAsync Acq.init)).reads).filter
        fun o => o.retval = 0).map (·.data) ∧
    (∀ b ∈ (readSyncInternal maxAlloc dev outs (ReadAsync Acq.init)).dataPipe,
      b.Size = dev.DataBufferSize ∧ (b.Buffer.length : Int) = dev.DataBufferSize) ∧
    (0 < dev.DataBufferSize → dev.DataBufferSize ≤ maxAlloc →
      (readSyncInternal maxAlloc dev outs (ReadAsync Acq.init)).reads = outs.length) ∧
    ((readSyncInternal maxAlloc dev outs (ReadAsync Acq.init)).reads = outs.length ∨
      ∃ e, (readSyncInternal maxAlloc dev outs (ReadAsync Acq.init)).pc = .panicked e) := by
  have hinit : (ReadAsync Acq.init).pc = .loopHead := rfl
  have hpipe : (ReadAsync Acq.init).dataPipe = [] := rfl
  have hreads : (ReadAsync Acq.init).reads = 0 := rfl
  by_cases hsz : 0 < dev.DataBufferSize ∧ dev.DataBufferSize ≤ maxAlloc
  · obtain ⟨h1, h2, _, _, _⟩ := readSyncInternal_of_pos maxAlloc dev hsz.1 hsz.2 outs _ hinit
    rw [hpipe, List.nil_append] at h1
    rw [hreads, Nat.zero_add] at h2
    rw [h1, h2, List.take_length]
    refine ⟨rfl, published_lengths dev outs, ?_, fun _ _ => rfl, Or.inl rfl⟩
    intro b hb
    obtain ⟨o, _, ho⟩ := List.mem_filterMap.1 hb
    obtain ⟨_, _, h3, h4⟩ := published_shape dev o b ho (by omega)
    exact ⟨h3, h4⟩
  · have hbad : dev.DataBufferSize ≤ 0 ∨ (maxAlloc : Int) < dev.DataBufferSize := by omega
    rw [readSyncInternal_panics maxAlloc dev hbad outs _ hinit]
    obtain ⟨e, h1, h2, h3⟩ := enterRead_panics maxAlloc dev _ hbad hinit
    rw [h2, h3, hpipe, hreads]
    refine ⟨by simp, by simp, ?_, fun h h' => absurd ⟨h, h'⟩ hsz, Or.inr ⟨e, h1⟩⟩
    intro b hb
    cases hb

/-- C7 on three driver returns, the middle one failed, with four-byte
buffers. -/
theorem C7_dataPipe_witness :
    ((0 : Int) < ({ NewRadio with DataBufferSize := 4 } : Radio).DataBufferSize ∧
     ({ NewRadio with DataBufferSize := 4 } : Radio).DataBufferSize ≤ ((2 ^ 48 : Nat) : Int)) ∧
    (readSyncInternal (2 ^ 48) { NewRadio with DataBufferSize := 4 }
        [⟨0, 4, [1, 2, 3, 4]⟩, ⟨-1, 0, []⟩, ⟨0, 2, [5, 6]⟩] (ReadAsync Acq.init)).reads = 3 :=
  ⟨by decide,
   (C7_dataPipe_is_successful_reads (2 ^ 48) { NewRadio with DataBufferSize := 4 }
      [⟨0, 4, [1, 2, 3, 4]⟩, ⟨-1, 0, []⟩, ⟨0, 2, [5, 6]⟩]).2.2.2.1 (by decide) (by decide)⟩

/-- C8 (evaluation of the code): `CancelAsync` was requested while the first
read was in flight and that read has returned, so the loop is back at its head
with one buffer allocated and nothing sent. It then allocates a second buffer
and blocks in the next driver call; when that call returns code `0` with the
bytes `9, 8` it blocks in the send of that buffer, and once the send completes
the buffer is on `dataPipe` and the loop is at its head again: no stopped
state is reached. -/
theorem C8_loop_runs_after_cancel :
    afterCancelledRead.cancelRequests = 1 ∧
    afterCancelledRead.pc = .loopHead ∧
    afterCancelledRead.allocated = 1 ∧
    afterCancelledRead.dataPipe = [] ∧
    (enterRead (2 ^ 48) cancelDev afterCancelledRead).allocated = 2 ∧
    (enterRead (2 ^ 48) cancelDev afterCancelledRead).pc = .inRead ⟨2, 0, [0, 0]⟩ ∧
    (readReturns ⟨0, 2, [9, 8]⟩ (enterRead (2 ^ 48) cancelDev afterCancelledRead)).pc =
      .inSend ⟨2, 2, [9, 8]⟩ ∧
    (sendCompletes (readReturns ⟨0, 2, [9, 8]⟩
        (enterRead (2 ^ 48) cancelDev afterCancelledRead))).dataPipe = [⟨2, 2, [9, 8]⟩] ∧
    (sendCompletes (readReturns ⟨0, 2, [9, 8]⟩
        (enterRead (2 ^ 48) cancelDev afterCancelledRead))).pc = .loopHead := by
  decide

/-- C9 as stated fails: the capacity `1 << 62` is not negative, and with the
allocation limit `1 << 48` of linux/amd64 `newDataBuffer` panics and returns
no buffer. -/
theorem C9_newDataBuffer_panics_above_limit :
    (0 : Int) ≤ 2 ^ 62 ∧ newDataBuffer (2 ^ 48) (2 ^ 62) = .error .lenOutOfRange ∧
    ¬ ∃ b, newDataBuffer (2 ^ 48) (2 ^ 62) = .ok b := by
  have h : newDataBuffer (2 ^ 48) (2 ^ 62) = .error .lenOutOfRange := by decide
  refine ⟨by decide, h, ?_⟩
  rintro ⟨b, hb⟩
  rw [h] at hb
  cases hb

/-- C9, amended: for every capacity `n` with `0 ≤ n` and `n` not above the
allocation limit of the runtime, `newDataBuffer n` returns a buffer with
`Size = n`, `Length = 0` and a `Buffer` of exactly `n` bytes, all zero; for
every other `n` it returns no buffer. -/
theorem C9_newDataBuffer_within_limit (maxAlloc : Nat) (n : Int) :
    (0 ≤ n ∧ n ≤ maxAlloc →
      ∃ b, newDataBuffer maxAlloc n = .ok b ∧ b.Size = n ∧ b.Length = 0 ∧
        (b.Buffer.length : Int) = n ∧ ∀ x ∈ b.Buffer, x = 0) ∧
    ((n < 0 ∨ (maxAlloc : Int) < n) → ¬ ∃ b, newDataBuffer maxAlloc n = .ok b) := by
  constructor
  · rintro ⟨hn, hmax⟩
    have h0 : ¬ n < 0 := by omega
    have h1 : ¬ (maxAlloc : Int) < n := by omega
    refine ⟨⟨n, 0, List.replicate n.toNat 0⟩, by simp [newDataBuffer, h0, h1], rfl, rfl, ?_, ?_⟩
    · simp only [List.length_replicate]; omega
    · intro x hx
      exact (List.mem_replicate.1 hx).2
  · rintro hbad ⟨b, hb⟩
    unfold newDataBuffer at hb
    by_cases h0 : n < 0
    · rw [if_pos h0] at hb; cases hb
    · have h1 : (maxAlloc : Int) < n := by omega
      rw [if_neg h0, if_pos h1] at hb; cases hb

/-- C9 amended, at capacity `3` with the allocation limit `1 << 48`. -/
theorem C9_newDataBuffer_witness :
    ((0 : Int) ≤ 3 ∧ (3 : Int) ≤ ((2 ^ 48 : Nat) : Int)) ∧
    ∃ b, newDataBuffer (2 ^ 48) 3 = .ok b ∧ b.Size = 3 ∧ b.Length = 0 ∧
      (b.Buffer.length : Int) = 3 ∧ ∀ x ∈ b.Buffer, x = 0 :=
  ⟨by decide, (C9_newDataBuffer_within_limit (2 ^ 48) 3).1 (by decide)⟩

/-- C10: with `uint8` arithmetic as arithmetic modulo `256`, for every buffer
with even `Length = L`, `0 ≤ L ≤ len(Buffer)`, `IqToMag` returns exactly `L`
values; the first `L / 2` are `0`; for every `k < L / 2` the value at index
`L / 2 + k` is the integer square root of `(x * x + y * y) mod 256` with
`x = (Buffer[2k] - 127) mod 256` and `y = (Buffer[2k+1] - 127) mod 256`; and
every value lies in `[0, 15]`. -/
theorem C10_iqToMag_wraps_and_pads (d : DataBuffer) (h0 : 0 ≤ d.Length)
    (heven : d.Length % 2 = 0) (hlen : d.Length ≤ d.Buffer.length) :
    ∃ m, d.IqToMag = .ok m ∧ (m.Buffer.length : Int) = d.Length ∧
      (∀ k, k < d.Length.toNat / 2 → m.Buffer[k]? = some 0) ∧
      (∀ k, k < d.Length.toNat / 2 → ∃ b0 b1 : Fin 256,
        d.Buffer[2 * k]? = some b0 ∧ d.Buffer[2 * k + 1]? = some b1 ∧
        m.Buffer[d.Length.toNat / 2 + k]? =
          some (Nat.sqrt
            ((((b0.val : Int) - 127) % 256 * (((b0.val : Int) - 127) % 256) +
              ((b1.val : Int) - 127) % 256 * (((b1.val : Int) - 127) % 256)) % 256).toNat
            : Int)) ∧
      (∀ v ∈ m.Buffer, (0 : Int) ≤ v ∧ v ≤ (15 : Int)) := by
  obtain ⟨n, hn⟩ : ∃ n : Nat, d.Length = n := ⟨d.Length.toNat, by omega⟩
  have hne : n % 2 = 0 := by omega
  have hnl : n ≤ d.Buffer.length := by omega
  have hhalf : (n + 1) / 2 = n / 2 := by omega
  have hok := IqToMag_ok d n hn (by omega)
  rw [hhalf] at hok
  refine ⟨_, hok, ?_, ?_, ?_, ?_⟩
  · simp only [List.length_append, List.length_replicate, List.length_map, List.length_range]
    rw [hn]; omega
  · intro k hk
    rw [hn, Int.toNat_ofNat] at hk
    rw [List.getElem?_append_left (by simpa using hk)]
    exact List.getElem?_replicate_of_lt hk
  · intro k hk
    rw [hn, Int.toNat_ofNat] at hk
    have i0 : 2 * k < d.Buffer.length := by omega
    have i1 : 2 * k + 1 < d.Buffer.length := by omega
    have e0 : d.Buffer[2 * k]? = some d.Buffer[2 * k] := List.getElem?_eq_getElem i0
    have e1 : d.Buffer[2 * k + 1]? = some d.Buffer[2 * k + 1] := List.getElem?_eq_getElem i1
    refine ⟨d.Buffer[2 * k], d.Buffer[2 * k + 1], e0, e1, ?_⟩
    rw [hn, Int.toNat_ofNat, ← pairMag_eq]
    rw [List.getElem?_append_right (by simp)]
    simp only [List.length_replicate, Nat.add_sub_cancel_left]
    rw [List.getElem?_map, List.getElem?_range hk]
    simp [pairAt, e0, e1]
  · intro v hv
    rcases List.mem_append.1 hv with hv | hv
    · rw [(List.mem_replicate.1 hv).2]
      exact ⟨le_refl _, by decide⟩
    · obtain ⟨k, _, rfl⟩ := List.mem_map.1 hv
      exact pairMag_range _ _

/-- C10 on the four bytes `0, 0, 255, 127`. -/
theorem C10_iqToMag_witness :
    ((0 : Int) ≤ (DataBuffer.mk 4 4 [0, 0, 255, 127]).Length ∧
     (DataBuffer.mk 4 4 [0, 0, 255, 127]).Length % 2 = 0 ∧
     (DataBuffer.mk 4 4 [0, 0, 255, 127]).Length ≤
       (DataBuffer.mk 4 4 [0, 0, 255, 127]).Buffer.length) ∧
    ∃ m, (DataBuffer.mk 4 4 [0, 0, 255, 127]).IqToMag = .ok m ∧
      (m.Buffer.length : Int) = (DataBuffer.mk 4 4 [0, 0, 255, 127]).Length :=
  ⟨by decide,
   (C10_iqToMag_wraps_and_pads (DataBuffer.mk 4 4 [0, 0, 255, 127])
      (by decide) (by decide) (by decide)).imp fun _ h => ⟨h.1, h.2.1⟩⟩

end Rtlsdr
